import Mathlib

/- Shallow embedding of the character-level RNN in createAndRunRNN_Model.py.
   Machine floats are idealised as exact rationals.  The transcendental numpy
   primitives np.tanh, np.exp and np.sqrt, and the sampling primitive
   np.random.choice, are abstracted as oracle parameters (named T, E, S and
   pick below); every other operation is translated literally from the source,
   so all definitions stay executable. -/

/-- Rational matrices with statically known dimensions, the model of the
numpy arrays used by the program. -/
abbrev Mtx (m n : ℕ) : Type := Matrix (Fin m) (Fin n) ℚ

variable {α : Type} {H Vz m n : ℕ}

open Matrix

/-- State of `DataReader` (source lines 4-19): the flattened corpus `data`,
the symbol-to-index map `char_to_ix`, the window length and the cursor. -/
structure DataReader (α : Type) where
  data : List α
  char_to_ix : α → ℕ
  seq_length : ℕ
  pointer : ℕ

/-- `self.data_size = len(self.data)` (source line 15). -/
def DataReader.data_size (d : DataReader α) : ℕ := d.data.length

/-- `DataReader.next_batch` (source lines 21-30): emit the window starting at
the cursor and the window shifted by one as targets, advance the cursor by
`seq_length`, and reset it to 0 when `pointer + seq_length + 1 >= data_size`. -/
def DataReader.next_batch (d : DataReader α) : (List ℕ × List ℕ) × DataReader α :=
  let inputs := ((d.data.drop d.pointer).take d.seq_length).map d.char_to_ix
  let targets := ((d.data.drop (d.pointer + 1)).take d.seq_length).map d.char_to_ix
  let p2 := d.pointer + d.seq_length
  let p3 := if d.data_size ≤ p2 + d.seq_length + 1 then 0 else p2
  ((inputs, targets), { d with pointer := p3 })

/-- `DataReader.just_started` (source lines 32-33). -/
def DataReader.just_started (d : DataReader α) : Bool := d.pointer == 0

/-- Iterate `next_batch` from a given reader state, keeping only the state:
the reader after `k` completed calls. -/
def DataReader.run (d : DataReader α) : ℕ → DataReader α
  | 0 => d
  | k + 1 => ((d.run k).next_batch).2

/-- The window emitted by the next call of `next_batch` is well formed: both
lists have length exactly `seq_length`, the inputs are the corpus symbols
starting at the cursor (encoded through `char_to_ix`), and each target is the
corpus symbol immediately following the corresponding input. -/
def readerWindowOk (d : DataReader α) : Prop :=
  ((d.next_batch).1.1.length = d.seq_length) ∧
  ((d.next_batch).1.2.length = d.seq_length) ∧
  (∀ i, i < d.seq_length →
    (d.next_batch).1.1.get? i = (d.data.get? (d.pointer + i)).map d.char_to_ix ∧
    (d.next_batch).1.2.get? i = (d.data.get? (d.pointer + i + 1)).map d.char_to_ix)

lemma readerWindowOk_of_bound (d : DataReader α)
    (hb : d.pointer + d.seq_length + 1 ≤ d.data.length) : readerWindowOk d := by
  refine ⟨?_, ?_, ?_⟩
  · simp only [DataReader.next_batch, List.length_map, List.length_take, List.length_drop]
    omega
  · simp only [DataReader.next_batch, List.length_map, List.length_take, List.length_drop]
    omega
  · intro i hi
    constructor
    · simp only [DataReader.next_batch, List.get?_map, List.get?_take hi, List.get?_drop]
    · simp only [DataReader.next_batch, List.get?_map, List.get?_take hi, List.get?_drop]
      congr 2
      omega

lemma reader_run_fields (d : DataReader α) (k : ℕ) :
    (d.run k).data = d.data ∧ (d.run k).char_to_ix = d.char_to_ix ∧
    (d.run k).seq_length = d.seq_length := by
  induction k with
  | zero => exact ⟨rfl, rfl, rfl⟩
  | succ k ih =>
    obtain ⟨h1, h2, h3⟩ := ih
    refine ⟨?_, ?_, ?_⟩ <;>
      simp [DataReader.run, DataReader.next_batch, h1, h2, h3]

lemma reader_run_pointer_bound (d : DataReader α) (h0 : d.pointer = 0)
    (hN : d.seq_length + 1 ≤ d.data.length) (k : ℕ) :
    (d.run k).pointer + d.seq_length + 1 ≤ d.data.length := by
  induction k with
  | zero => simpa [DataReader.run, h0] using hN
  | succ k ih =>
    obtain ⟨hdata, _, hseq⟩ := reader_run_fields d k
    show ((d.run k).next_batch).2.pointer + d.seq_length + 1 ≤ d.data.length
    simp only [DataReader.next_batch, DataReader.data_size, hdata, hseq]
    split <;> omega

/-- C2: for every corpus of length at least `seq_length + 1` and every number
`k` of completed calls, the next call of `next_batch` returns an input list of
exactly `seq_length` consecutive corpus symbols starting at the cursor and a
target list shifted by exactly one position (each target is the corpus symbol
immediately following the corresponding input); moreover the cursor always
satisfies `pointer + seq_length + 1 ≤ data_size`, so a short (partial) window
is never emitted. -/
theorem reader_c2 (d : DataReader α) (h0 : d.pointer = 0)
    (hN : d.seq_length + 1 ≤ d.data.length) (k : ℕ) :
    readerWindowOk (d.run k) ∧
    (d.run k).pointer + (d.run k).seq_length + 1 ≤ (d.run k).data.length := by
  obtain ⟨hdata, _, hseq⟩ := reader_run_fields d k
  have hb := reader_run_pointer_bound d h0 hN k
  constructor
  · exact readerWindowOk_of_bound _ (by rw [hseq, hdata]; exact hb)
  · rw [hseq, hdata]; exact hb

/-- Concrete five-symbol reader used to witness C2. -/
def readerW : DataReader ℕ := ⟨[10, 11, 12, 13, 14], fun a => a, 2, 0⟩

/-- Witness for C2 at a concrete reader after three calls. -/
theorem reader_c2_witness :
    (readerW.pointer = 0 ∧ readerW.seq_length + 1 ≤ readerW.data.length) ∧
    (readerWindowOk (readerW.run 3) ∧
      (readerW.run 3).pointer + (readerW.run 3).seq_length + 1 ≤
        (readerW.run 3).data.length) :=
  ⟨⟨rfl, by decide⟩, reader_c2 readerW rfl (by decide) 3⟩

/-- The five parameter tensors of the model (source lines 48-52):
input-to-hidden `U`, hidden-to-output `V`, hidden-to-hidden `W`, hidden bias
`b` and output bias `c`, for hidden size `H` and vocabulary size `Vz`. -/
@[ext]
structure RNN (H Vz : ℕ) where
  U : Mtx H Vz
  V : Mtx Vz H
  W : Mtx H H
  b : Mtx H 1
  c : Mtx Vz 1

/-- The adagrad accumulators `mU, mW, mV, mb, mc` (source lines 56-60). -/
@[ext]
structure RNNMem (H Vz : ℕ) where
  mU : Mtx H Vz
  mW : Mtx H H
  mV : Mtx Vz H
  mb : Mtx H 1
  mc : Mtx Vz 1

/-- The five gradient tensors returned by `backward` (source line 102). -/
@[ext]
structure Grads (H Vz : ℕ) where
  dU : Mtx H Vz
  dW : Mtx H H
  dV : Mtx Vz H
  db : Mtx H 1
  dc : Mtx Vz 1

/-- Sampled values consumed by `RNN.__init__` (source lines 48-50 draw
`np.random.uniform` entries): the random draws are abstracted as an input
bundle, one tensor of raw draws per parameter tensor.  The source consumes
draws only for `U`, `V` and `W`. -/
structure Draws (H Vz : ℕ) where
  uU : Mtx H Vz
  uV : Mtx Vz H
  uW : Mtx H H
  ub : Mtx H 1
  uc : Mtx Vz 1

/-- `RNN.__init__` (source lines 48-52): `U`, `V`, `W` take the uniform draws
while `b = np.zeros((hidden_size, 1))` and `c = np.zeros((vocab_size, 1))`. -/
def rnnInit (d : Draws H Vz) : RNN H Vz := ⟨d.uU, d.uV, d.uW, 0, 0⟩

/-- Initialisation as claim C4 states it: every one of the five tensors,
including the biases `b` and `c`, receives the random uniform draws. -/
def rnnInitClaim (d : Draws H Vz) : RNN H Vz := ⟨d.uU, d.uV, d.uW, d.ub, d.uc⟩

/-- Concrete draw bundle whose entries are all 1/2, inside the range
`±1/√in_dim` for dimensions 1. -/
def drawsHalf : Draws 1 1 :=
  ⟨Matrix.of fun _ _ => 1/2, Matrix.of fun _ _ => 1/2, Matrix.of fun _ _ => 1/2,
   Matrix.of fun _ _ => 1/2, Matrix.of fun _ _ => 1/2⟩

/-- C4 counterexample: the constructor does not give the bias `b` the uniform
draw; with draws all equal to 1/2 the constructed model differs from the
model the claim describes, because `b` is the zero matrix (source line 51). -/
theorem init_c4_counterexample : rnnInit drawsHalf ≠ rnnInitClaim drawsHalf := by
  intro h
  have hb : (rnnInit drawsHalf).b 0 0 = (rnnInitClaim drawsHalf).b 0 0 := by rw [h]
  simp only [rnnInit, rnnInitClaim, drawsHalf, Matrix.zero_apply, Matrix.of_apply] at hb
  norm_num at hb

/-- C4 as amended: at construction `U`, `V` and `W` are initialised with
variance-scaled uniform draws whose entries lie within `±1/√in_dim` (`in_dim`
is the vocabulary size for `U` and the hidden size for `V` and `W`, expressed
rationally as `entry² · in_dim ≤ 1`), while the biases `b` and `c` are
initialised to zero. -/
theorem init_c4_amended (H Vz : ℕ) (d : Draws H Vz)
    (hU : ∀ i j, d.uU i j * d.uU i j * (Vz : ℚ) ≤ 1)
    (hV : ∀ i j, d.uV i j * d.uV i j * (H : ℚ) ≤ 1)
    (hW : ∀ i j, d.uW i j * d.uW i j * (H : ℚ) ≤ 1) :
    (rnnInit d).b = 0 ∧ (rnnInit d).c = 0 ∧
    (∀ i j, (rnnInit d).U i j * (rnnInit d).U i j * (Vz : ℚ) ≤ 1) ∧
    (∀ i j, (rnnInit d).V i j * (rnnInit d).V i j * (H : ℚ) ≤ 1) ∧
    (∀ i j, (rnnInit d).W i j * (rnnInit d).W i j * (H : ℚ) ≤ 1) :=
  ⟨rfl, rfl, hU, hV, hW⟩

/-- Witness for C4 as amended, at the concrete draw bundle `drawsHalf`. -/
theorem init_c4_witness :
    (∀ i j, drawsHalf.uU i j * drawsHalf.uU i j * ((1 : ℕ) : ℚ) ≤ 1) ∧
    ((rnnInit drawsHalf).b = 0 ∧ (rnnInit drawsHalf).c = 0 ∧
      (∀ i j, (rnnInit drawsHalf).U i j * (rnnInit drawsHalf).U i j * ((1 : ℕ) : ℚ) ≤ 1) ∧
      (∀ i j, (rnnInit drawsHalf).V i j * (rnnInit drawsHalf).V i j * ((1 : ℕ) : ℚ) ≤ 1) ∧
      (∀ i j, (rnnInit drawsHalf).W i j * (rnnInit drawsHalf).W i j * ((1 : ℕ) : ℚ) ≤ 1)) :=
  ⟨fun i j => by norm_num [drawsHalf],
   init_c4_amended 1 1 drawsHalf (fun i j => by norm_num [drawsHalf])
     (fun i j => by norm_num [drawsHalf]) (fun i j => by norm_num [drawsHalf])⟩

/-- The constant `1e-8` added inside the square root of the adagrad update
(source line 114). -/
def epsAda : ℚ := 1 / 100000000

/-- One row of the `zip` loop of `update_model` (source lines 110-114) for a
single parameter tensor: `mem += dparam * dparam` and then
`param += -learning_rate * dparam / np.sqrt(mem + 1e-8)`, all elementwise;
`np.sqrt` is the oracle `S`.  Returns the new parameter and accumulator. -/
def adaStep (S : ℚ → ℚ) (lr : ℚ) (p d mem : Mtx m n) : Mtx m n × Mtx m n :=
  let mem2 := mem + Matrix.of fun i j => d i j * d i j
  (Matrix.of fun i j => p i j + -lr * d i j / S (mem2 i j + epsAda), mem2)

/-- `RNN.update_model` (source lines 108-114): apply the adagrad row to each
of the five parameter tensors and their paired gradients and accumulators. -/
def RNN.update_model (S : ℚ → ℚ) (lr : ℚ) (r : RNN H Vz) (mem : RNNMem H Vz)
    (g : Grads H Vz) : RNN H Vz × RNNMem H Vz :=
  let pU := adaStep S lr r.U g.dU mem.mU
  let pW := adaStep S lr r.W g.dW mem.mW
  let pV := adaStep S lr r.V g.dV mem.mV
  let pb := adaStep S lr r.b g.db mem.mb
  let pc := adaStep S lr r.c g.dc mem.mc
  (⟨pU.1, pV.1, pW.1, pb.1, pc.1⟩, ⟨pU.2, pW.2, pV.2, pb.2, pc.2⟩)

/-- C7: calling `update_model` with all five gradient tensors equal to zero
leaves all five parameter tensors unchanged, for every square-root oracle,
learning rate, parameter state and accumulator state. -/
theorem update_c7 (S : ℚ → ℚ) (lr : ℚ) (r : RNN H Vz) (mem : RNNMem H Vz) :
    (RNN.update_model S lr r mem ⟨0, 0, 0, 0, 0⟩).1 = r := by
  refine RNN.ext ?_ ?_ ?_ ?_ ?_ <;>
    · ext i j
      simp [RNN.update_model, adaStep, Matrix.zero_apply]

/-- Elementwise comparison of two accumulator bundles: every entry of every
one of the five accumulator tensors of `m1` is at most the matching entry
of `m2`. -/
def memLe (m1 m2 : RNNMem H Vz) : Prop :=
  (∀ i j, m1.mU i j ≤ m2.mU i j) ∧ (∀ i j, m1.mW i j ≤ m2.mW i j) ∧
  (∀ i j, m1.mV i j ≤ m2.mV i j) ∧ (∀ i j, m1.mb i j ≤ m2.mb i j) ∧
  (∀ i j, m1.mc i j ≤ m2.mc i j)

lemma adaStep_mem_le (S : ℚ → ℚ) (lr : ℚ) (p d mem : Mtx m n) (i : Fin m) (j : Fin n) :
    mem i j ≤ (adaStep S lr p d mem).2 i j := by
  simp only [adaStep, Matrix.add_apply, Matrix.of_apply]
  exact le_add_of_nonneg_right (mul_self_nonneg _)

/-- A training run at the update granularity: starting from an arbitrary
parameter and accumulator state, repeatedly apply `update_model` with an
arbitrary stream `gs` of gradient bundles (the bundles `backward` returns at
each iteration of `train`, source lines 143-145). -/
def runUpdates (S : ℚ → ℚ) (lr : ℚ) (gs : ℕ → Grads H Vz)
    (st : RNN H Vz × RNNMem H Vz) : ℕ → RNN H Vz × RNNMem H Vz
  | 0 => st
  | k + 1 =>
    let s := runUpdates S lr gs st k
    RNN.update_model S lr s.1 s.2 (gs k)

lemma update_memLe (S : ℚ → ℚ) (lr : ℚ) (r : RNN H Vz) (mem : RNNMem H Vz)
    (g : Grads H Vz) : memLe mem (RNN.update_model S lr r mem g).2 := by
  exact ⟨adaStep_mem_le S lr r.U g.dU mem.mU, adaStep_mem_le S lr r.W g.dW mem.mW,
    adaStep_mem_le S lr r.V g.dV mem.mV, adaStep_mem_le S lr r.b g.db mem.mb,
    adaStep_mem_le S lr r.c g.dc mem.mc⟩

/-- C8: every call of `update_model` leaves each entry of each of the five
accumulator tensors `mU, mW, mV, mb, mc` at least as large as before the
call, and consequently along a whole training run (any number of updates from
any state with any stream of gradient bundles; no other operation of the
model reads or writes the accumulators, as only `update_model` takes an
`RNNMem` argument) the accumulators are elementwise non-decreasing. -/
theorem update_c8 (H Vz : ℕ) :
    (∀ (S : ℚ → ℚ) (lr : ℚ) (r : RNN H Vz) (mem : RNNMem H Vz) (g : Grads H Vz),
      memLe mem (RNN.update_model S lr r mem g).2) ∧
    (∀ (S : ℚ → ℚ) (lr : ℚ) (gs : ℕ → Grads H Vz) (st : RNN H Vz × RNNMem H Vz) (k : ℕ),
      memLe (runUpdates S lr gs st k).2 (runUpdates S lr gs st (k + 1)).2) :=
  ⟨fun S lr r mem g => update_memLe S lr r mem g,
   fun S lr gs st k => update_memLe S lr _ _ (gs k)⟩

/-- `np.clip(x, -5, 5)` on a single entry (source line 101). -/
def clip5 (x : ℚ) : ℚ := min (max x (-5)) 5

/-- Elementwise clipping of a whole tensor to `[-5, 5]` (source lines
100-101). -/
def clipM (A : Mtx m n) : Mtx m n := Matrix.of fun i j => clip5 (A i j)

lemma abs_clip5_le (x : ℚ) : |clip5 x| ≤ 5 := by
  rw [abs_le]
  constructor
  · exact le_min (le_max_right x (-5)) (by norm_num)
  · exact min_le_right _ 5

/-- Accumulator state of the backward loop: the five running gradient sums
together with the carried `dhnext` (source lines 79-81). -/
structure BState (H Vz : ℕ) extends Grads H Vz where
  dhnext : Mtx H 1

/-- Body of the backward loop of `RNN.backward` at time step `t` (source
lines 82-98).  `Vm` and `Wm` are `self.V` and `self.W`; `xs`, `hs` and `ps`
are the per-step one-hot inputs, hidden states and probability vectors from
`forward` (the hidden states are indexed by `ℤ` because the dictionary from
`forward` holds the previous window's hidden state at key `-1`). -/
def bStep (Vm : Mtx Vz H) (Wm : Mtx H H) (xs : ℕ → Mtx Vz 1) (hs : ℤ → Mtx H 1)
    (ps : ℕ → Mtx Vz 1) (targets : ℕ → ℕ) (t : ℕ) (s : BState H Vz) : BState H Vz :=
  let dy : Mtx Vz 1 := Matrix.of fun i j => ps t i j - if (i : ℕ) = targets t then 1 else 0
  let dV2 := s.dV + dy * (hs (t : ℤ))ᵀ
  let dc2 := s.dc + dy
  let dh := Vmᵀ * dy + s.dhnext
  let dhrec := Matrix.of fun i j => (1 - hs (t : ℤ) i j * hs (t : ℤ) i j) * dh i j
  let db2 := s.db + dhrec
  let dU2 := s.dU + dhrec * (xs t)ᵀ
  let dW2 := s.dW + dhrec * (hs ((t : ℤ) - 1))ᵀ
  ⟨⟨dU2, dW2, dV2, db2, dc2⟩, Wmᵀ * dhrec⟩

/-- The `for t in reversed(range(self.seq_length))` loop of `RNN.backward`
as a fold over the explicit list of time steps. -/
def bLoop (Vm : Mtx Vz H) (Wm : Mtx H H) (xs : ℕ → Mtx Vz 1) (hs : ℤ → Mtx H 1)
    (ps : ℕ → Mtx Vz 1) (targets : ℕ → ℕ) : List ℕ → BState H Vz → BState H Vz
  | [], s => s
  | t :: ts, s => bLoop Vm Wm xs hs ps targets ts (bStep Vm Wm xs hs ps targets t s)

/-- `RNN.backward` (source lines 77-102): run the reverse-order loop over
`reversed(range(seq_length))` starting from zero accumulators and a zero
`dhnext`, then clip every returned gradient tensor elementwise to `[-5, 5]`.
`L` is `self.seq_length`. -/
def RNN.backward (r : RNN H Vz) (L : ℕ) (xs : ℕ → Mtx Vz 1) (hs : ℤ → Mtx H 1)
    (ps : ℕ → Mtx Vz 1) (targets : ℕ → ℕ) : Grads H Vz :=
  let s := bLoop r.V r.W xs hs ps targets ((List.range L).reverse) ⟨⟨0, 0, 0, 0, 0⟩, 0⟩
  ⟨clipM s.dU, clipM s.dW, clipM s.dV, clipM s.db, clipM s.dc⟩

/-- One step of the reverse-order BPTT recurrence exactly as claim C1 states
it: `dy = prob[t]` with `dy[targets[t]]` decremented by 1, `dV += dy·hᵗ`,
`dc += dy`, `dh = Vᵗ·dy + dh_next`, `dh_raw = (1 − h²) ⊙ dh`, `db += dh_raw`,
`dU += dh_raw·xᵗ`, `dW += dh_raw·h_prevᵗ`, `dh_next = Wᵗ·dh_raw`. -/
def bpttStep (Vm : Mtx Vz H) (Wm : Mtx H H) (xs : ℕ → Mtx Vz 1) (hs : ℤ → Mtx H 1)
    (ps : ℕ → Mtx Vz 1) (targets : ℕ → ℕ) (t : ℕ) (s : BState H Vz) : BState H Vz :=
  let dy : Mtx Vz 1 := Matrix.of fun i j => ps t i j - if (i : ℕ) = targets t then 1 else 0
  let dhraw :=
    Matrix.of fun i j =>
      (1 - hs (t : ℤ) i j * hs (t : ℤ) i j) * (Vmᵀ * dy + s.dhnext) i j
  { dU := s.dU + dhraw * (xs t)ᵀ
    dW := s.dW + dhraw * (hs ((t : ℤ) - 1))ᵀ
    dV := s.dV + dy * (hs (t : ℤ))ᵀ
    db := s.db + dhraw
    dc := s.dc + dy
    dhnext := Wmᵀ * dhraw }

/-- The recurrence of claim C1, iterating `t` from `L - 1` down to `0`:
`bpttDown L` first processes step `L - 1`, then `L - 2`, and so on down
to `0`. -/
def bpttDown (Vm : Mtx Vz H) (Wm : Mtx H H) (xs : ℕ → Mtx Vz 1) (hs : ℤ → Mtx H 1)
    (ps : ℕ → Mtx Vz 1) (targets : ℕ → ℕ) : ℕ → BState H Vz → BState H Vz
  | 0, s => s
  | t + 1, s => bpttDown Vm Wm xs hs ps targets t (bpttStep Vm Wm xs hs ps targets t s)

/-- The five gradient tensors defined by the BPTT recurrence of claim C1:
iterate from `t = L - 1` down to `t = 0` with zero initial accumulators and
zero `dh_next`, then clamp every element to absolute value at most 5. -/
def bpttGrads (Vm : Mtx Vz H) (Wm : Mtx H H) (L : ℕ) (xs : ℕ → Mtx Vz 1)
    (hs : ℤ → Mtx H 1) (ps : ℕ → Mtx Vz 1) (targets : ℕ → ℕ) : Grads H Vz :=
  let s := bpttDown Vm Wm xs hs ps targets L ⟨⟨0, 0, 0, 0, 0⟩, 0⟩
  ⟨clipM s.dU, clipM s.dW, clipM s.dV, clipM s.db, clipM s.dc⟩

lemma bStep_eq_bpttStep (Vm : Mtx Vz H) (Wm : Mtx H H) (xs : ℕ → Mtx Vz 1)
    (hs : ℤ → Mtx H 1) (ps : ℕ → Mtx Vz 1) (targets : ℕ → ℕ) (t : ℕ) (s : BState H Vz) :
    bStep Vm Wm xs hs ps targets t s = bpttStep Vm Wm xs hs ps targets t s := rfl

lemma bLoop_reverse_range (Vm : Mtx Vz H) (Wm : Mtx H H) (xs : ℕ → Mtx Vz 1)
    (hs : ℤ → Mtx H 1) (ps : ℕ → Mtx Vz 1) (targets : ℕ → ℕ) (L : ℕ) :
    ∀ s, bLoop Vm Wm xs hs ps targets ((List.range L).reverse) s =
      bpttDown Vm Wm xs hs ps targets L s := by
  induction L with
  | zero => intro s; rfl
  | succ L ih =>
    intro s
    rw [List.range_succ, List.reverse_append]
    show bLoop Vm Wm xs hs ps targets (L :: (List.range L).reverse)
      s = _
    rw [bLoop, bStep_eq_bpttStep, ih, bpttDown]

/-- Every entry of every tensor of a gradient bundle has absolute value at
most 5. -/
def gradBound (g : Grads H Vz) : Prop :=
  (∀ i j, |g.dU i j| ≤ 5) ∧ (∀ i j, |g.dW i j| ≤ 5) ∧ (∀ i j, |g.dV i j| ≤ 5) ∧
  (∀ i j, |g.db i j| ≤ 5) ∧ (∀ i j, |g.dc i j| ≤ 5)

/-- C1: for every value bundle of per-step one-hot inputs `xs`, hidden states
`hs`, probability vectors `ps` and targets (in particular any bundle a
forward pass produces), `backward` returns exactly the five gradient tensors
defined by the reverse-order BPTT recurrence of the claim, iterated from
`t = seq_length - 1` down to `0` with `dh_next` initialised to zero and
clamped elementwise at the end, and every element of every returned tensor
has absolute value at most 5. -/
theorem backward_c1 (r : RNN H Vz) (L : ℕ) (xs : ℕ → Mtx Vz 1) (hs : ℤ → Mtx H 1)
    (ps : ℕ → Mtx Vz 1) (targets : ℕ → ℕ) :
    RNN.backward r L xs hs ps targets = bpttGrads r.V r.W L xs hs ps targets ∧
    gradBound (RNN.backward r L xs hs ps targets) := by
  constructor
  · unfold RNN.backward bpttGrads
    rw [bLoop_reverse_range]
  · refine ⟨?_, ?_, ?_, ?_, ?_⟩ <;>
      · intro i j
        simp only [RNN.backward, clipM, Matrix.of_apply]
        exact abs_clip5_le _

/-- `np.max(x)` over the entries of a column vector (source line 63); the
vocabulary is nonempty in any run, recorded by the `NeZero` side condition. -/
def matMax [NeZero n] (x : Mtx n 1) : ℚ :=
  Finset.univ.sup' ⟨⟨0, Nat.pos_of_ne_zero (NeZero.ne n)⟩, Finset.mem_univ _⟩
    fun i => x i 0

/-- `RNN.softmax` (source lines 62-64): `p = np.exp(x - np.max(x))` and then
`p / np.sum(p)`, with the exponential oracle `E` in place of `np.exp`. -/
def RNN.softmax [NeZero n] (E : ℚ → ℚ) (x : Mtx n 1) : Mtx n 1 :=
  let p := Matrix.of fun i j => E (x i j - matMax x)
  Matrix.of fun i j => p i j / ∑ k, p k 0

lemma matMax_add_const [NeZero n] (x : Mtx n 1) (c : ℚ) :
    matMax (Matrix.of fun i j => x i j + c) = matMax x + c := by
  unfold matMax
  apply le_antisymm
  · apply Finset.sup'_le
    intro i _
    simp only [Matrix.of_apply]
    exact add_le_add_right (Finset.le_sup' (fun k => x k 0) (Finset.mem_univ i)) c
  · rw [← le_sub_iff_add_le]
    apply Finset.sup'_le
    intro i _
    rw [le_sub_iff_add_le]
    exact le_trans (le_of_eq rfl)
      (Finset.le_sup' (fun k => (Matrix.of fun a b => x a b + c) k 0) (Finset.mem_univ i))

/-- C6: for every positive exponential oracle and every input vector, the
entries of `RNN.softmax` sum to 1, and adding the same constant `c` to every
coordinate of the input leaves the output unchanged (shift invariance, a
consequence of the max-subtraction in the source). -/
theorem softmax_c6 [NeZero n] (E : ℚ → ℚ) (hE : ∀ q, 0 < E q) (x : Mtx n 1) (c : ℚ) :
    (∑ i, RNN.softmax E x i 0) = 1 ∧
    RNN.softmax E (Matrix.of fun i j => x i j + c) = RNN.softmax E x := by
  constructor
  · have hpos : 0 < ∑ k, E (x k 0 - matMax x) :=
      Finset.sum_pos (fun k _ => hE _)
        ⟨⟨0, Nat.pos_of_ne_zero (NeZero.ne n)⟩, Finset.mem_univ _⟩
    simp only [RNN.softmax, Matrix.of_apply]
    rw [← Finset.sum_div]
    exact div_self (ne_of_gt hpos)
  · ext i j
    simp only [RNN.softmax, Matrix.of_apply, matMax_add_const]
    have harg : ∀ a : ℚ, a + c - (matMax x + c) = a - matMax x := fun a => by ring
    simp only [harg]

/-- Constant positive exponential oracle used in the C6 witness. -/
def expOne : ℚ → ℚ := fun _ => 1

/-- Concrete two-coordinate input vector used in the C6 witness. -/
def xC6 : Mtx 2 1 := Matrix.of fun i _ => if (i : ℕ) = 0 then 3 else 7

/-- Witness for C6 at a concrete positive oracle, input vector and shift. -/
theorem softmax_c6_witness :
    (∀ q : ℚ, 0 < expOne q) ∧
    ((∑ i, RNN.softmax expOne xC6 i 0) = 1 ∧
      RNN.softmax expOne (Matrix.of fun i j => xC6 i j + 5) = RNN.softmax expOne xC6) :=
  ⟨fun _ => one_pos, softmax_c6 expOne (fun _ => one_pos) xC6 5⟩

/-- One-hot encoding of index `ix` as a `v × 1` column (source lines 70-71,
121-122, 129-130). -/
def oneHot (v ix : ℕ) : Mtx v 1 := Matrix.of fun i _ => if (i : ℕ) = ix then 1 else 0

/-- One application of the recurrence
`h = np.tanh(np.dot(self.U, x) + np.dot(self.W, h) + self.b)` (source lines
72, 125 and 168), with the tanh oracle `T` applied elementwise. -/
def hstep (T : ℚ → ℚ) (r : RNN H Vz) (x : Mtx Vz 1) (h : Mtx H 1) : Mtx H 1 :=
  Matrix.of fun i j => T ((r.U * x + r.W * h + r.b) i j)

/-- The sequence `hs[0], …, hs[L-1]` of hidden states computed by the loop of
`RNN.forward` (source lines 69-72) on the input index list, starting from the
previous hidden state `hprev` (`hs[-1]`). -/
def forwardHs (T : ℚ → ℚ) (r : RNN H Vz) : List ℕ → Mtx H 1 → List (Mtx H 1)
  | [], _ => []
  | ix :: rest, h =>
    let h2 := hstep T r (oneHot Vz ix) h
    h2 :: forwardHs T r rest h2

/-- `RNN.forward` (source lines 66-75): per-step one-hot inputs, hidden
states and probability vectors; the probabilities go through `RNN.softmax`
(the stabilised form). -/
def RNN.forward [NeZero Vz] (T E : ℚ → ℚ) (r : RNN H Vz) (inputs : List ℕ)
    (hprev : Mtx H 1) : List (Mtx Vz 1) × List (Mtx H 1) × List (Mtx Vz 1) :=
  let xs := inputs.map (oneHot Vz)
  let hs := forwardHs T r inputs hprev
  let ycap := hs.map fun h => RNN.softmax E (r.V * h + r.c)
  (xs, hs, ycap)

/-- The unstabilised distribution `p = np.exp(y) / np.sum(np.exp(y))`
computed inline by `RNN.sample` (source line 127) and `RNN.predict` (source
line 170), with the exponential oracle `E` in place of `np.exp`. -/
def rawDist (E : ℚ → ℚ) (y : Mtx n 1) : Mtx n 1 :=
  Matrix.of fun i j => E (y i j) / ∑ k, E (y k 0)

/-- The output distribution `sample` and `predict` compute at hidden state
`h`: the unstabilised `rawDist` of the logits `np.dot(self.V, h) + self.c`
(source lines 126-127 and 169-170). -/
def RNN.sampleDist (E : ℚ → ℚ) (r : RNN H Vz) (h : Mtx H 1) : Mtx Vz 1 :=
  rawDist E (r.V * h + r.c)

/-- The generation loop shared verbatim by `RNN.sample` (source lines
124-131) and `RNN.predict` (source lines 167-174): repeat `n` times from the
current input `x`, hidden state `h` and step counter `t`, updating the hidden
state, computing the unstabilised distribution, letting the sampling oracle
`pick` choose the next index from that distribution and re-encoding it as
the next one-hot input. -/
def genLoop (T E : ℚ → ℚ) (pick : ℕ → Mtx Vz 1 → ℕ) (r : RNN H Vz) :
    ℕ → Mtx Vz 1 → Mtx H 1 → ℕ → List ℕ
  | 0, _, _, _ => []
  | nn + 1, x, h, t =>
    let h2 := hstep T r x h
    let p := RNN.sampleDist E r h2
    let ix := pick t p
    ix :: genLoop T E pick r nn (oneHot Vz ix) h2 (t + 1)

/-- `RNN.sample` (source lines 116-132): start from the one-hot of `seed_ix`
and the given hidden state, and run the generation loop `n` times. -/
def RNN.sample (T E : ℚ → ℚ) (pick : ℕ → Mtx Vz 1 → ℕ) (r : RNN H Vz)
    (h : Mtx H 1) (seed_ix n : ℕ) : List ℕ :=
  genLoop T E pick r n (oneHot Vz seed_ix) h 0

/-- The input vector `RNN.predict` feeds to its generation loop (source lines
157-163): starting from zeros, set `x[ix] = 1` for the index of every symbol
of the seed string in turn, without ever resetting `x` or stepping the hidden
state, so `x` ends up multi-hot over all seed symbols. -/
def RNN.predictInitX (Vz : ℕ) (seedIxs : List ℕ) : Mtx Vz 1 :=
  seedIxs.foldl (fun x ix => Matrix.of fun i j => if (i : ℕ) = ix then 1 else x i j) 0

/-- The hidden state with which `RNN.predict` enters its generation loop:
`h = np.zeros((self.hidden_size, 1))` (source line 165). -/
def RNN.predictInitH (H : ℕ) : Mtx H 1 := 0

/-- `RNN.predict` (source lines 154-176): collect the seed indices, build the
multi-hot input vector, start the generation loop from the zero hidden state,
and decode the seed indices followed by the generated indices through
`ix_to_char`. -/
def RNN.predict (T E : ℚ → ℚ) (pick : ℕ → Mtx Vz 1 → ℕ) (char_to_ix : α → ℕ)
    (ix_to_char : ℕ → α) (r : RNN H Vz) (start : List α) (n : ℕ) : List α :=
  let ixes := start.map char_to_ix
  let x := RNN.predictInitX Vz ixes
  let gen := genLoop T E pick r n x (RNN.predictInitH H) 0
  (ixes ++ gen).map ix_to_char

/-- The hidden state that a forward pass over the seed indices would produce,
starting from a fresh zero hidden state: the last hidden state of the
`forward` recurrence, as claim C3 describes the seeding phase of `predict`. -/
def RNN.seedHidden (T : ℚ → ℚ) (r : RNN H Vz) (seedIxs : List ℕ) : Mtx H 1 :=
  (forwardHs T r seedIxs 0).getLastD 0

/-- Concrete one-hidden-unit, one-symbol model with `U = 1` and all other
tensors zero, used to exhibit the seeding behaviour of `predict`. -/
def rC3 : RNN 1 1 := ⟨Matrix.of fun _ _ => 1, 0, 0, 0, 0⟩

/-- C3 fails on the code: `predict` never forward-feeds the seed symbols.
It enters its generation loop with the zero hidden state `predictInitH`
(source line 165, after the seed loop of lines 160-163 has only built the
multi-hot input vector), whereas the claim says that state equals the one a
forward pass over the seed would produce; already for the one-symbol seed
`[0]` on the concrete model `rC3` (with the tanh oracle instantiated as the
identity) the forward-fed hidden state is `1`, not `0`. -/
theorem predict_seed_c3 :
    RNN.seedHidden (fun q => q) rC3 [0] ≠ RNN.predictInitH 1 := by
  intro h
  have h0 : RNN.seedHidden (fun q => q) rC3 [0] 0 0 = RNN.predictInitH 1 0 0 := by
    rw [h]
  simp only [RNN.seedHidden, forwardHs, hstep, RNN.predictInitH, rC3, oneHot,
    List.getLastD_cons, List.getLastD_nil, Matrix.of_apply, Matrix.add_apply,
    Matrix.mul_apply, Matrix.zero_apply, Fin.sum_univ_one, Fin.val_zero,
    Matrix.zero_mul, Matrix.mul_zero] at h0
  norm_num at h0

/-- The logit vector `(0, 1)ᵗ` used to separate the stabilised and the
unstabilised softmax. -/
def yC9 : Mtx 2 1 := Matrix.of fun i _ => if (i : ℕ) = 1 then 1 else 0

/-- A positive exponential oracle that is not a homomorphism from addition to
multiplication, standing for the finite-precision `np.exp`. -/
def eC9 : ℚ → ℚ := fun q => q + 2

/-- Concrete model whose output logits at the zero hidden state are `yC9`. -/
def rC9 : RNN 1 2 := ⟨0, 0, 0, 0, yC9⟩

lemma matMax_yC9 : matMax yC9 = 1 := by
  unfold matMax
  apply le_antisymm
  · apply Finset.sup'_le
    intro i _
    fin_cases i <;> norm_num [yC9]
  · have h1 : (1 : ℚ) = yC9 1 0 := by norm_num [yC9]
    rw [h1]
    exact Finset.le_sup' (fun k => yC9 k 0) (Finset.mem_univ 1)

/-- C9 fails on the code: `sample` (source line 127) and `predict` (source
line 170) compute the output distribution in the unstabilised form
`np.exp(y) / np.sum(np.exp(y))`, not through the max-subtracted
`RNN.softmax`; at the concrete exponential oracle `eC9` and logits `yC9`
(reached by `sample` at the zero hidden state of `rC9`) the two computations
give different distributions, so the distribution `sample` and `predict`
produce is not the max-subtraction-stabilised one the claim requires
everywhere. -/
theorem sample_softmax_c9 :
    RNN.sampleDist eC9 rC9 0 ≠ RNN.softmax eC9 (rC9.V * (0 : Mtx 1 1) + rC9.c) := by
  have hy : rC9.V * (0 : Mtx 1 1) + rC9.c = yC9 := by
    show (0 : Mtx 2 1) * (0 : Mtx 1 1) + yC9 = yC9
    rw [Matrix.zero_mul, zero_add]
  intro h
  rw [hy] at h
  have h0 : RNN.sampleDist eC9 rC9 0 0 0 = RNN.softmax eC9 yC9 0 0 := by rw [h]
  rw [show RNN.sampleDist eC9 rC9 0 = rawDist eC9 yC9 from by
    unfold RNN.sampleDist; rw [hy]] at h0
  simp only [rawDist, RNN.softmax, matMax_yC9, Matrix.of_apply,
    Fin.sum_univ_two] at h0
  simp only [yC9, eC9, Matrix.of_apply, Fin.val_zero, Fin.val_one] at h0
  norm_num at h0

lemma genLoop_length (T E : ℚ → ℚ) (pick : ℕ → Mtx Vz 1 → ℕ) (r : RNN H Vz) :
    ∀ (nn : ℕ) (x : Mtx Vz 1) (h : Mtx H 1) (t : ℕ),
      (genLoop T E pick r nn x h t).length = nn := by
  intro nn
  induction nn with
  | zero => intro x h t; rfl
  | succ nn ih =>
    intro x h t
    simp only [genLoop, List.length_cons, ih]

lemma map_roundtrip (f : α → ℕ) (g : ℕ → α) (l : List α)
    (hl : ∀ a ∈ l, g (f a) = a) : (l.map f).map g = l := by
  induction l with
  | nil => rfl
  | cons a l ih =>
    rw [List.map_cons, List.map_cons, hl a (List.mem_cons_self a l),
      ih fun b hb => hl b (List.mem_cons_of_mem a hb)]

/-- C10: for every seed string whose symbols round-trip through the
vocabulary maps and every requested count `n`, `predict` returns a symbol
list of length `len(seed) + n` whose first `len(seed)` symbols are exactly
the seed itself: the seed indices are prepended to the generated indices
before decoding (source lines 163, 174-175). -/
theorem predict_c10 (T E : ℚ → ℚ) (pick : ℕ → Mtx Vz 1 → ℕ) (char_to_ix : α → ℕ)
    (ix_to_char : ℕ → α) (r : RNN H Vz) (start : List α) (n : ℕ)
    (hinv : ∀ a ∈ start, ix_to_char (char_to_ix a) = a) :
    (RNN.predict T E pick char_to_ix ix_to_char r start n).length = start.length + n ∧
    (RNN.predict T E pick char_to_ix ix_to_char r start n).take start.length = start := by
  have hpred : RNN.predict T E pick char_to_ix ix_to_char r start n =
      start ++ (genLoop T E pick r n (RNN.predictInitX Vz (start.map char_to_ix))
        (RNN.predictInitH H) 0).map ix_to_char := by
    unfold RNN.predict
    rw [List.map_append, map_roundtrip char_to_ix ix_to_char start hinv]
  constructor
  · rw [hpred, List.length_append, List.length_map, genLoop_length]
  · rw [hpred, List.take_left]

/-- The all-zero one-hidden-unit, one-symbol model, used in witnesses. -/
def rZero : RNN 1 1 := ⟨0, 0, 0, 0, 0⟩

/-- Witness for C10 at a concrete model, seed and oracles. -/
theorem predict_c10_witness :
    (∀ a ∈ [0], (fun z : ℕ => z) ((fun z : ℕ => z) a) = a) ∧
    ((RNN.predict (fun q => q) (fun q => q) (fun _ _ => 0) (fun z : ℕ => z)
        (fun z : ℕ => z) rZero [0] 1).length = [0].length + 1 ∧
      (RNN.predict (fun q => q) (fun q => q) (fun _ _ => 0) (fun z : ℕ => z)
        (fun z : ℕ => z) rZero [0] 1).take [0].length = [0]) :=
  ⟨fun a _ => rfl,
   predict_c10 (fun q => q) (fun q => q) (fun _ _ => 0) (fun z : ℕ => z)
     (fun z : ℕ => z) rZero [0] 1 fun a _ => rfl⟩

/-- Per-step reading of `RNN.loss` (source lines 104-106): the code comment
says cross-entropy but the body is `np.mean(np.square(ps - targets))`, which
on the actual arguments (a dict of arrays minus a list of ints) is a type
error; read charitably per time step, as the spec itself describes it, it is
the mean squared difference between the entries of the probability vector
and the raw integer target index. -/
def RNN.lossMSE (p : Mtx n 1) (target : ℕ) : ℚ :=
  (∑ i, (p i 0 - (target : ℚ)) * (p i 0 - (target : ℚ))) / n

/-- The uniform distribution over three symbols. -/
def uniform3 : Mtx 3 1 := Matrix.of fun _ _ => 1/3

/-- C5 fails on the code: the loss is not cross-entropy and is not an
equivalent score that decreases as predictions improve.  With three symbols
and target index 2, the perfect prediction (the one-hot at the target, which
assigns strictly more probability to the target than the uniform prediction
does) has a strictly LARGER loss than the uniform prediction: 3 versus 25/9. -/
theorem loss_c5 :
    uniform3 2 0 < oneHot 3 2 2 0 ∧
    RNN.lossMSE uniform3 2 < RNN.lossMSE (oneHot 3 2) 2 := by
  constructor
  · norm_num [uniform3, oneHot, Fin.val_two]
  · norm_num [RNN.lossMSE, uniform3, oneHot, Fin.sum_univ_three, Fin.val_zero,
      Fin.val_one, Fin.val_two]
